import Mathlib

/-!
Verification development for `thunder/rdds/imgblocks/strategy.py`.

The Python source is shallowly embedded below:
pure functions become Lean functions, numpy arrays become a shape plus a
total indexing function on integer index lists, the mutable strategy object
becomes an explicit `StrategyState` record threaded through the operations,
Python `None` fields become `Option`, and code paths that raise become
`Except` / an explicit error component.  Machine integers are modelled as
`Nat` (the code only ever works with nonnegative sizes, counts and indices),
and Python float arithmetic in the block-size search is modelled with exact
rationals `ℚ`.
-/

set_option maxHeartbeats 1000000

/-- Python `slice` objects as used by the source: either `slice(None)`
(a full-range slice) or `slice(start, stop, step)` with `step = 1`. -/
inductive Slice where
  | all : Slice
  | range (start stop step : Nat) : Slice
deriving DecidableEq

/-- Python error kinds that the embedded code paths can raise. -/
inductive PyError where
  | valueError : PyError
  | typeError : PyError
  | attributeError : PyError
  | indexError : PyError
deriving DecidableEq

/-- Loop body of `SimpleBlockingStrategy.__generateSlices` for one dimension:
`n` remaining split indices, current start `st`, remaining remainder `rem`.
Each step computes `en = st + blocksize`, bumps it by one while remainder
is left, and emits `slice(st, min(en, dimsize), 1)`. -/
def generateSlicesDimAux (dimsize blocksize : Nat) : Nat → Nat → Nat → List Slice
  | 0, _, _ => []
  | n + 1, st, rem =>
    if 0 < rem then
      Slice.range st (min (st + blocksize + 1) dimsize) 1 ::
        generateSlicesDimAux dimsize blocksize n (st + blocksize + 1) (rem - 1)
    else
      Slice.range st (min (st + blocksize) dimsize) 1 ::
        generateSlicesDimAux dimsize blocksize n (st + blocksize) rem

/-- One-axis slice generation of `SimpleBlockingStrategy.__generateSlices`:
`blocksize = dimsize / nsplits` (integer division), `blockrem = dimsize % nsplits`,
then walk split indices `0 .. nsplits-1`. -/
def generateSlicesDim (nsplits dimsize : Nat) : List Slice :=
  generateSlicesDimAux dimsize (dimsize / nsplits) nsplits 0 (dimsize % nsplits)

/-- `SimpleBlockingStrategy.__generateSlices`: per-dimension sequences of slices,
one inner list per `zip(splitsPerDim, dims)` pair. -/
def generateSlices (splitsPerDim dims : List Nat) : List (List Slice) :=
  (splitsPerDim.zip dims).map (fun p => generateSlicesDim p.1 p.2)

/-- Closed form of the start offset of the i-th slice on an axis of size
`dimsize` split `nsplits` ways: `i` base-sized blocks plus one extra cell for
each remainder unit already consumed. -/
def sliceStart (dimsize nsplits i : Nat) : Nat :=
  i * (dimsize / nsplits) + min i (dimsize % nsplits)

lemma generateSlicesDimAux_eq (dimsize blocksize : Nat) :
    ∀ (n st rem : Nat), st + n * blocksize + rem ≤ dimsize → rem ≤ n →
      generateSlicesDimAux dimsize blocksize n st rem =
        (List.range n).map (fun i =>
          Slice.range (st + i * blocksize + min i rem)
            (st + (i + 1) * blocksize + min (i + 1) rem) 1) := by
  intro n
  induction n with
  | zero =>
    intro st rem h1 h2
    simp [generateSlicesDimAux]
  | succ n ih =>
    intro st rem h1 h2
    have hmul : (n + 1) * blocksize = n * blocksize + blocksize := by ring
    rw [List.range_succ_eq_map, List.map_cons, List.map_map]
    by_cases hr : 0 < rem
    · have hmin : min (st + blocksize + 1) dimsize = st + blocksize + 1 := by omega
      have h1' : (st + blocksize + 1) + n * blocksize + (rem - 1) ≤ dimsize := by omega
      have h2' : rem - 1 ≤ n := by omega
      simp only [generateSlicesDimAux, if_pos hr, hmin]
      congr 1
      · have e1 : st + 0 * blocksize + min 0 rem = st := by omega
        have e2 : st + (0 + 1) * blocksize + min (0 + 1) rem = st + blocksize + 1 := by
          have : (0 + 1) * blocksize = blocksize := by ring
          omega
        rw [e1, e2]
      · rw [ih (st + blocksize + 1) (rem - 1) h1' h2']
        apply List.map_congr_left
        intro i _
        simp only [Function.comp]
        have e3 : (i + 1) * blocksize = i * blocksize + blocksize := by ring
        have e4 : (i + 1 + 1) * blocksize = i * blocksize + blocksize + blocksize := by ring
        have e5 : st + blocksize + 1 + i * blocksize + min i (rem - 1) =
            st + (i + 1) * blocksize + min (i + 1) rem := by omega
        have e6 : st + blocksize + 1 + (i + 1) * blocksize + min (i + 1) (rem - 1) =
            st + (i + 1 + 1) * blocksize + min (i + 1 + 1) rem := by omega
        rw [e5, e6]
    · have hrem : rem = 0 := by omega
      subst hrem
      have hmin : min (st + blocksize) dimsize = st + blocksize := by omega
      have h1' : (st + blocksize) + n * blocksize + 0 ≤ dimsize := by omega
      simp only [generateSlicesDimAux, if_neg hr, hmin]
      congr 1
      · have e1 : st + 0 * blocksize + min 0 0 = st := by omega
        have e2 : st + (0 + 1) * blocksize + min (0 + 1) 0 = st + blocksize := by
          have : (0 + 1) * blocksize = blocksize := by ring
          omega
        rw [e1, e2]
      · rw [ih (st + blocksize) 0 h1' (Nat.zero_le n)]
        apply List.map_congr_left
        intro i _
        simp only [Function.comp]
        have e3 : (i + 1) * blocksize = i * blocksize + blocksize := by ring
        have e4 : (i + 1 + 1) * blocksize = i * blocksize + blocksize + blocksize := by ring
        have e5 : st + blocksize + i * blocksize + min i 0 =
            st + (i + 1) * blocksize + min (i + 1) 0 := by omega
        have e6 : st + blocksize + (i + 1) * blocksize + min (i + 1) 0 =
            st + (i + 1 + 1) * blocksize + min (i + 1 + 1) 0 := by omega
        rw [e5, e6]

lemma sliceStart_succ (dimsize nsplits i : Nat) :
    sliceStart dimsize nsplits (i + 1) =
      sliceStart dimsize nsplits i +
        (if i < dimsize % nsplits then dimsize / nsplits + 1 else dimsize / nsplits) := by
  simp only [sliceStart]
  have hmul : (i + 1) * (dimsize / nsplits) = i * (dimsize / nsplits) + dimsize / nsplits := by
    ring
  by_cases hc : i < dimsize % nsplits
  · rw [if_pos hc]; omega
  · rw [if_neg hc]; omega

lemma generateSlicesDim_eq (dimSize splits : Nat) (h1 : 1 ≤ splits) (h2 : splits ≤ dimSize) :
    generateSlicesDim splits dimSize =
      (List.range splits).map (fun i =>
        Slice.range (sliceStart dimSize splits i) (sliceStart dimSize splits (i + 1)) 1) := by
  have hdm : splits * (dimSize / splits) + dimSize % splits = dimSize :=
    Nat.div_add_mod dimSize splits
  have hmlt : dimSize % splits < splits := Nat.mod_lt _ (by omega)
  unfold generateSlicesDim
  have hle : 0 + splits * (dimSize / splits) + dimSize % splits ≤ dimSize := by
    rw [Nat.zero_add, hdm]
  rw [generateSlicesDimAux_eq dimSize (dimSize / splits) splits 0 (dimSize % splits)
    hle hmlt.le]
  apply List.map_congr_left
  intro i _
  simp [sliceStart]

/-- C1: for `1 ≤ splits ≤ dimSize` the slice generator yields exactly `splits`
contiguous half-open step-1 slices in increasing order, with no gaps or
overlaps, covering `[0, dimSize)`; with `base = dimSize / splits` and
`remainder = dimSize % splits`, slice `i` runs from `sliceStart i` to
`sliceStart (i+1)` and has length `base + 1` for the first `remainder`
slices and `base` for the rest. -/
theorem c1_range_partition (dimSize splits : Nat) (h1 : 1 ≤ splits) (h2 : splits ≤ dimSize) :
    generateSlicesDim splits dimSize =
      (List.range splits).map (fun i =>
        Slice.range (sliceStart dimSize splits i) (sliceStart dimSize splits (i + 1)) 1) ∧
    (generateSlicesDim splits dimSize).length = splits ∧
    sliceStart dimSize splits 0 = 0 ∧
    sliceStart dimSize splits splits = dimSize ∧
    (∀ i : Nat, sliceStart dimSize splits (i + 1) =
      sliceStart dimSize splits i +
        (if i < dimSize % splits then dimSize / splits + 1 else dimSize / splits)) := by
  have hmain := generateSlicesDim_eq dimSize splits h1 h2
  have hdm : splits * (dimSize / splits) + dimSize % splits = dimSize :=
    Nat.div_add_mod dimSize splits
  have hmlt : dimSize % splits < splits := Nat.mod_lt _ (by omega)
  refine ⟨hmain, ?_, ?_, ?_, fun i => sliceStart_succ dimSize splits i⟩
  · rw [hmain]; simp
  · simp [sliceStart]
  · simp only [sliceStart]
    rw [Nat.min_eq_right hmlt.le]
    exact hdm

/-- C1 witness: the example `dimSize = 10`, `splits = 3` gives slices
`[0,4) [4,7) [7,10)`, i.e. lengths `[4,3,3]`. -/
theorem c1_range_partition_witness :
    (1 ≤ 3 ∧ 3 ≤ 10 ∧ (generateSlicesDim 3 10).length = 3) ∧
    generateSlicesDim 3 10 = [Slice.range 0 4 1, Slice.range 4 7 1, Slice.range 7 10 1] :=
  ⟨⟨by decide, by decide, (c1_range_partition 10 3 (by decide) (by decide)).2.1⟩, by decide⟩

/-- Loop body of `_BlockMemoryAsSequence.indtosub`, operating on the reversed
dims list (the Python loop walks `dims[::-1]`): each dimension greedily
absorbs `delta = min(d - 1, idx)` extra splits starting from 1, and the
remaining linear index shrinks by `delta`. -/
def indtosubRevAux : List Nat → Nat → List Nat
  | [], _ => []
  | d :: ds, idx => (1 + min (d - 1) idx) :: indtosubRevAux ds (idx - min (d - 1) idx)

/-- `_BlockMemoryAsSequence.indtosub`: splits-per-dimension for a linear index,
filling split counts from the last dimension backwards. -/
def indtosub (dims : List Nat) (idx : Nat) : List Nat :=
  (indtosubRevAux dims.reverse idx).reverse

/-- `_BlockMemoryAsSequence.blockMemoryForSplits`: the average number of cells
in a block, `reduce(mul, [d / float(s) for (d, s) in zip(dims, sub)])`.
Python float division is modelled exactly in `ℚ`; the empty product is 1
(Python would raise on a zero-dimensional array, which no caller produces). -/
def blockMemoryForSplits : List Nat → List Nat → ℚ
  | d :: ds, s :: ss => ((d : ℚ) / (s : ℚ)) * blockMemoryForSplits ds ss
  | _, _ => 1

/-- `_BlockMemoryAsSequence.__len__`: `sum(d - 1 for d in dims) + 1`. -/
def memSeqLen (dims : List Nat) : Nat :=
  (dims.map (fun d => d - 1)).sum + 1

/-- `_BlockMemoryAsSequence.__getitem__`: the average block size at a
linear index. -/
def valueAt (dims : List Nat) (idx : Nat) : ℚ :=
  blockMemoryForSplits dims (indtosub dims idx)

/-- `_BlockMemoryAsReversedSequence.__getitem__` for an in-range index:
value at the mirrored forward index `len - 1 - idx` (the Python
`_reverseIdx` raises `IndexError` out of range; in-range it computes
`len - (idx + 1)` which is the same number). -/
def reversedValueAt (dims : List Nat) (idx : Nat) : ℚ :=
  valueAt dims (memSeqLen dims - 1 - idx)

/-- Modelled from the spec: one step of the traversal that `indtosub`
inverts — increment the split count of the last dimension whose count has
not yet reached its size (scanning dimensions from the last to the first);
here phrased on the reversed dims and splits lists. -/
def stepRev : List Nat → List Nat → List Nat
  | d :: ds, s :: ss => if s < d then (s + 1) :: ss else s :: stepRev ds ss
  | _, ss => ss

/-- Modelled from the spec: the traversal path on reversed lists, starting
from the all-ones split specification. -/
def specTraversalRev (ds : List Nat) : Nat → List Nat
  | 0 => ds.map (fun _ => 1)
  | n + 1 => stepRev ds (specTraversalRev ds n)

/-- Modelled from the spec: the n-th split specification on the traversal
path that increments the last dimension up to its size, then the
next-to-last, and so on. -/
def specTraversal (dims : List Nat) (n : Nat) : List Nat :=
  (specTraversalRev dims.reverse n).reverse

lemma indtosubRevAux_length (ds : List Nat) : ∀ idx, (indtosubRevAux ds idx).length = ds.length := by
  induction ds with
  | nil => intro idx; rfl
  | cons d ds ih => intro idx; simp [indtosubRevAux, ih]

lemma blockMemoryForSplits_nonneg : ∀ ds ss : List Nat, 0 ≤ blockMemoryForSplits ds ss := by
  intro ds
  induction ds with
  | nil => intro ss; cases ss <;> norm_num [blockMemoryForSplits]
  | cons d ds ih =>
    intro ss
    cases ss with
    | nil => norm_num [blockMemoryForSplits]
    | cons s ss =>
      simp only [blockMemoryForSplits]
      have h1 : (0 : ℚ) ≤ (d : ℚ) / (s : ℚ) := div_nonneg (Nat.cast_nonneg d) (Nat.cast_nonneg s)
      exact mul_nonneg h1 (ih ss)

lemma blockMemoryForSplits_append :
    ∀ (as cs : List Nat), as.length = cs.length → ∀ (bs ds : List Nat),
      blockMemoryForSplits (as ++ bs) (cs ++ ds) =
        blockMemoryForSplits as cs * blockMemoryForSplits bs ds := by
  intro as
  induction as with
  | nil =>
    intro cs hlen bs ds
    have : cs = [] := List.length_eq_zero.mp hlen.symm
    subst this
    simp [blockMemoryForSplits]
  | cons a as ih =>
    intro cs hlen bs ds
    cases cs with
    | nil => simp at hlen
    | cons c cs =>
      show ((a : ℚ) / (c : ℚ)) * blockMemoryForSplits (as ++ bs) (cs ++ ds) =
        ((a : ℚ) / (c : ℚ)) * blockMemoryForSplits as cs * blockMemoryForSplits bs ds
      rw [ih cs (by simpa using hlen) bs ds]
      ring

lemma blockMemoryForSplits_reverse :
    ∀ (ds ss : List Nat), ds.length = ss.length →
      blockMemoryForSplits ds.reverse ss.reverse = blockMemoryForSplits ds ss := by
  intro ds
  induction ds with
  | nil =>
    intro ss hlen
    have : ss = [] := List.length_eq_zero.mp hlen.symm
    subst this
    rfl
  | cons d ds ih =>
    intro ss hlen
    cases ss with
    | nil => simp at hlen
    | cons s ss =>
      have hl : ds.length = ss.length := by simpa using hlen
      have hrl : ds.reverse.length = ss.reverse.length := by simp [hl]
      simp only [List.reverse_cons]
      rw [blockMemoryForSplits_append ds.reverse ss.reverse hrl [d] [s]]
      rw [ih ss hl]
      simp only [blockMemoryForSplits]
      ring

lemma indtosubRevAux_value_antitone (ds : List Nat) (hpos : ∀ d ∈ ds, 0 < d) :
    ∀ i j : Nat, i ≤ j →
      blockMemoryForSplits ds (indtosubRevAux ds j) ≤
        blockMemoryForSplits ds (indtosubRevAux ds i) := by
  induction ds with
  | nil => intro i j _; simp [indtosubRevAux, blockMemoryForSplits]
  | cons d ds ih =>
    intro i j hij
    simp only [indtosubRevAux, blockMemoryForSplits]
    have hpos_tail : ∀ x ∈ ds, 0 < x := fun x hx => hpos x (List.mem_cons_of_mem d hx)
    have hdeni : (0 : ℚ) < ((1 + min (d - 1) i : ℕ) : ℚ) := by
      exact_mod_cast Nat.succ_le_of_lt (by omega)
    have hdenle : ((1 + min (d - 1) i : ℕ) : ℚ) ≤ ((1 + min (d - 1) j : ℕ) : ℚ) := by
      exact_mod_cast (by omega : 1 + min (d - 1) i ≤ 1 + min (d - 1) j)
    have hhead : ((d : ℚ) / ((1 + min (d - 1) j : ℕ) : ℚ)) ≤
        ((d : ℚ) / ((1 + min (d - 1) i : ℕ) : ℚ)) :=
      div_le_div_of_nonneg_left (Nat.cast_nonneg d) hdeni hdenle
    have htail := ih hpos_tail (i - min (d - 1) i) (j - min (d - 1) j) (by omega)
    exact mul_le_mul hhead htail (blockMemoryForSplits_nonneg _ _)
      (div_nonneg (Nat.cast_nonneg d) hdeni.le)

lemma valueAt_eq_rev (dims : List Nat) (idx : Nat) :
    valueAt dims idx = blockMemoryForSplits dims.reverse (indtosubRevAux dims.reverse idx) := by
  unfold valueAt indtosub
  have hlen : dims.length = (indtosubRevAux dims.reverse idx).reverse.length := by
    rw [List.length_reverse, indtosubRevAux_length, List.length_reverse]
  calc blockMemoryForSplits dims (indtosubRevAux dims.reverse idx).reverse
      = blockMemoryForSplits dims.reverse (indtosubRevAux dims.reverse idx).reverse.reverse :=
        (blockMemoryForSplits_reverse dims (indtosubRevAux dims.reverse idx).reverse hlen).symm
    _ = blockMemoryForSplits dims.reverse (indtosubRevAux dims.reverse idx) := by
        rw [List.reverse_reverse]

lemma valueAt_antitone (dims : List Nat) (hpos : ∀ d ∈ dims, 0 < d) :
    ∀ i j : Nat, i ≤ j → valueAt dims j ≤ valueAt dims i := by
  intro i j hij
  rw [valueAt_eq_rev, valueAt_eq_rev]
  exact indtosubRevAux_value_antitone dims.reverse
    (fun d hd => hpos d (List.mem_reverse.mp hd)) i j hij

/-- C3: for positive dims, the average-block-size sequence
`valueAt = blockMemoryForSplits ∘ indtosub` is monotonically non-increasing
over `[0, memSeqLen dims)`, and the reversed view `reversedValueAt` is
monotonically non-decreasing. -/
theorem c3_block_size_monotonicity (dims : List Nat) (hpos : ∀ d ∈ dims, 0 < d) :
    (∀ i j : Nat, i < j → j < memSeqLen dims → valueAt dims j ≤ valueAt dims i) ∧
    (∀ i j : Nat, i < j → j < memSeqLen dims →
      reversedValueAt dims i ≤ reversedValueAt dims j) := by
  constructor
  · intro i j hij _
    exact valueAt_antitone dims hpos i j hij.le
  · intro i j hij _
    unfold reversedValueAt
    exact valueAt_antitone dims hpos _ _ (by omega)

/-- C3 witness: instantiation at `dims = [2, 3]`. -/
theorem c3_block_size_monotonicity_witness :
    (∀ d ∈ [2, 3], 0 < d) ∧
    ((∀ i j : Nat, i < j → j < memSeqLen [2, 3] → valueAt [2, 3] j ≤ valueAt [2, 3] i) ∧
     (∀ i j : Nat, i < j → j < memSeqLen [2, 3] →
       reversedValueAt [2, 3] i ≤ reversedValueAt [2, 3] j)) :=
  ⟨by decide, c3_block_size_monotonicity [2, 3] (by decide)⟩

lemma indtosubRevAux_zero (ds : List Nat) : indtosubRevAux ds 0 = ds.map (fun _ => 1) := by
  induction ds with
  | nil => rfl
  | cons d ds ih => simp [indtosubRevAux, ih]

lemma indtosubRevAux_full (ds : List Nat) (hpos : ∀ d ∈ ds, 0 < d) :
    indtosubRevAux ds ((ds.map (fun x => x - 1)).sum) = ds := by
  induction ds with
  | nil => rfl
  | cons d ds ih =>
    have hd : 0 < d := hpos d (List.mem_cons_self d ds)
    simp only [List.map_cons, List.sum_cons, indtosubRevAux]
    have h1 : min (d - 1) (d - 1 + (ds.map (fun x => x - 1)).sum) = d - 1 := by omega
    rw [h1]
    congr 1
    · omega
    · have h2 : d - 1 + (ds.map (fun x => x - 1)).sum - (d - 1) =
          (ds.map (fun x => x - 1)).sum := by omega
      rw [h2]
      exact ih (fun x hx => hpos x (List.mem_cons_of_mem d hx))

lemma stepRev_indtosubRevAux (ds : List Nat) (hpos : ∀ d ∈ ds, 0 < d) :
    ∀ n : Nat, n + 1 ≤ (ds.map (fun x => x - 1)).sum →
      stepRev ds (indtosubRevAux ds n) = indtosubRevAux ds (n + 1) := by
  induction ds with
  | nil => intro n h; simp at h
  | cons d ds ih =>
    intro n h
    have hd : 0 < d := hpos d (List.mem_cons_self d ds)
    simp only [List.map_cons, List.sum_cons] at h
    by_cases hc : n + 1 ≤ d - 1
    · have h1 : min (d - 1) n = n := by omega
      have h2 : min (d - 1) (n + 1) = n + 1 := by omega
      simp only [indtosubRevAux, h1, h2, stepRev]
      rw [if_pos (by omega : 1 + n < d)]
      have eh : 1 + n + 1 = 1 + (n + 1) := by omega
      have et : n - n = n + 1 - (n + 1) := by omega
      rw [eh, et]
    · have h1 : min (d - 1) n = d - 1 := by omega
      have h2 : min (d - 1) (n + 1) = d - 1 := by omega
      simp only [indtosubRevAux, h1, h2, stepRev]
      rw [if_neg (by omega : ¬ 1 + (d - 1) < d)]
      congr 1
      have e : n + 1 - (d - 1) = (n - (d - 1)) + 1 := by omega
      rw [e]
      exact ih (fun x hx => hpos x (List.mem_cons_of_mem d hx)) (n - (d - 1)) (by omega)

lemma indtosubRevAux_eq_specTraversalRev (ds : List Nat) (hpos : ∀ d ∈ ds, 0 < d) :
    ∀ n : Nat, n ≤ (ds.map (fun x => x - 1)).sum →
      indtosubRevAux ds n = specTraversalRev ds n := by
  intro n
  induction n with
  | zero => intro _; rw [indtosubRevAux_zero]; rfl
  | succ n ih =>
    intro h
    rw [← stepRev_indtosubRevAux ds hpos n h, ih (by omega)]
    rfl

/-- C4: for positive dims the search sequence has length
`sum (d - 1) + 1`; `indtosub` maps 0 to the all-ones SplitSpec and the last
index to `dims`; and over the whole range `[0, memSeqLen dims)` it is exactly
the inverse of the spec traversal that fills the last dimension first (a
dimension of size 1 contributing zero steps). -/
theorem c4_indtosub_inverts_traversal (dims : List Nat) (hpos : ∀ d ∈ dims, 0 < d) :
    memSeqLen dims = (dims.map (fun d => d - 1)).sum + 1 ∧
    indtosub dims 0 = dims.map (fun _ => 1) ∧
    indtosub dims (memSeqLen dims - 1) = dims ∧
    (∀ n : Nat, n < memSeqLen dims → indtosub dims n = specTraversal dims n) := by
  have hrevpos : ∀ d ∈ dims.reverse, 0 < d := fun d hd => hpos d (List.mem_reverse.mp hd)
  have hsum : (dims.reverse.map (fun x => x - 1)).sum = (dims.map (fun x => x - 1)).sum := by
    rw [List.map_reverse, List.sum_reverse]
  refine ⟨rfl, ?_, ?_, ?_⟩
  · unfold indtosub
    rw [indtosubRevAux_zero, List.map_reverse, List.reverse_reverse]
  · unfold indtosub memSeqLen
    have he : (dims.map (fun d => d - 1)).sum + 1 - 1 = (dims.map (fun x => x - 1)).sum := by
      omega
    rw [he, ← hsum, indtosubRevAux_full dims.reverse hrevpos, List.reverse_reverse]
  · intro n hn
    unfold indtosub specTraversal
    rw [indtosubRevAux_eq_specTraversalRev dims.reverse hrevpos n
      (by rw [hsum]; unfold memSeqLen at hn; omega)]

/-- C4 witness: instantiation at `dims = [1, 3]`, exercising a dimension of
size 1. -/
theorem c4_indtosub_inverts_traversal_witness :
    (∀ d ∈ [1, 3], 0 < d) ∧
    (memSeqLen [1, 3] = ([1, 3].map (fun d => d - 1)).sum + 1 ∧
     indtosub [1, 3] 0 = [1, 3].map (fun _ => 1) ∧
     indtosub [1, 3] (memSeqLen [1, 3] - 1) = [1, 3] ∧
     (∀ n : Nat, n < memSeqLen [1, 3] → indtosub [1, 3] n = specTraversal [1, 3] n)) :=
  ⟨by decide, c4_indtosub_inverts_traversal [1, 3] (by decide)⟩

/-- `_BlockMemoryAsReversedSequence._reverseIdx`: mirrors an index, raising
`IndexError` (modelled as `none`) when out of range. -/
def reverseIdx (dims : List Nat) (idx : Nat) : Option Nat :=
  if idx < memSeqLen dims then some (memSeqLen dims - (idx + 1)) else none

/-- `_BlockMemoryAsReversedSequence.indtosub`: forward `indtosub` at the
mirrored index. -/
def reversedIndtosub (dims : List Nat) (idx : Nat) : Option (List Nat) :=
  (reverseIdx dims idx).map (fun k => indtosub dims k)

/-- Python `bisect.bisect_left` while-loop body; `fuel` bounds the number of
iterations (the interval length always suffices since it shrinks every
step). -/
def bisectLeftAux (get : Nat → ℚ) (x : ℚ) : Nat → Nat → Nat → Nat
  | 0, lo, _ => lo
  | fuel + 1, lo, hi =>
    if lo < hi then
      if get ((lo + hi) / 2) < x then bisectLeftAux get x fuel ((lo + hi) / 2 + 1) hi
      else bisectLeftAux get x fuel lo ((lo + hi) / 2)
    else lo

/-- `bisect.bisect_left` over the virtual sequence `get` on `[lo, hi)`. -/
def bisectLeft (get : Nat → ℚ) (x : ℚ) (lo hi : Nat) : Nat :=
  bisectLeftAux get x (hi - lo) lo hi

/-- Body of `SimpleBlockingStrategy.generateFromBlockSize` once the target
ratio `blockSize / float(minseriessize)` has been formed:
`tmpidx = bisect.bisect_left(memseq, target)`, clamped by one when it equals
`len(memseq)`, then `memseq.indtosub(tmpidx)`. -/
def genFromTargetRatio (dims : List Nat) (target : ℚ) : Option (List Nat) :=
  reversedIndtosub dims
    (if bisectLeft (reversedValueAt dims) target 0 (memSeqLen dims) = memSeqLen dims
     then bisectLeft (reversedValueAt dims) target 0 (memSeqLen dims) - 1
     else bisectLeft (reversedValueAt dims) target 0 (memSeqLen dims))

/-- `SimpleBlockingStrategy.generateFromBlockSize` with an integer byte
count: `minseriessize = nimages * itemsize`, target ratio
`blockSize / float(minseriessize)`, then the bisect search above.  The
returned splits list is what the constructor call `cls(splitsPerDim)`
receives. -/
def generateFromBlockSize (blockSize : Nat) (dims : List Nat) (nimages itemsize : Nat) :
    Option (List Nat) :=
  genFromTargetRatio dims ((blockSize : ℚ) / ((nimages * itemsize : ℕ) : ℚ))

lemma bisectLeftAux_spec (get : Nat → ℚ) (x : ℚ) (n : Nat)
    (hmono : ∀ i j : Nat, i ≤ j → j < n → get i ≤ get j) :
    ∀ (fuel lo hi : Nat), hi - lo ≤ fuel → lo ≤ hi → hi ≤ n →
      (∀ k, k < lo → get k < x) → (hi < n → x ≤ get hi) →
      (∀ k, k < bisectLeftAux get x fuel lo hi → get k < x) ∧
      (bisectLeftAux get x fuel lo hi < n → x ≤ get (bisectLeftAux get x fuel lo hi)) ∧
      bisectLeftAux get x fuel lo hi ≤ n := by
  intro fuel
  induction fuel with
  | zero =>
    intro lo hi h1 h2 h3 h4 h5
    have hlohi : lo = hi := by omega
    subst hlohi
    exact ⟨h4, h5, by show lo ≤ n; omega⟩
  | succ fuel ih =>
    intro lo hi h1 h2 h3 h4 h5
    simp only [bisectLeftAux]
    by_cases hlt : lo < hi
    · rw [if_pos hlt]
      by_cases hget : get ((lo + hi) / 2) < x
      · rw [if_pos hget]
        apply ih ((lo + hi) / 2 + 1) hi (by omega) (by omega) h3
        · intro k hk
          by_cases hklo : k < lo
          · exact h4 k hklo
          · have hkm : k ≤ (lo + hi) / 2 := by omega
            exact lt_of_le_of_lt (hmono k ((lo + hi) / 2) hkm (by omega)) hget
        · exact h5
      · rw [if_neg hget]
        apply ih lo ((lo + hi) / 2) (by omega) (by omega) (by omega) h4
        intro _
        exact le_of_not_lt hget
    · rw [if_neg hlt]
      have hlohi : lo = hi := by omega
      subst hlohi
      exact ⟨h4, h5, by omega⟩

lemma bisectLeft_spec (get : Nat → ℚ) (x : ℚ) (n : Nat)
    (hmono : ∀ i j : Nat, i ≤ j → j < n → get i ≤ get j) :
    (∀ k, k < bisectLeft get x 0 n → get k < x) ∧
    (bisectLeft get x 0 n < n → x ≤ get (bisectLeft get x 0 n)) ∧
    bisectLeft get x 0 n ≤ n :=
  bisectLeftAux_spec get x n hmono (n - 0) 0 n (le_refl _) (Nat.zero_le n) (le_refl n)
    (fun k hk => absurd hk (Nat.not_lt_zero k)) (fun h => absurd h (lt_irrefl n))

lemma reversedValueAt_mono (dims : List Nat) (hpos : ∀ d ∈ dims, 0 < d) :
    ∀ i j : Nat, i ≤ j → j < memSeqLen dims →
      reversedValueAt dims i ≤ reversedValueAt dims j := by
  intro i j hij _
  unfold reversedValueAt
  exact valueAt_antitone dims hpos _ _ (by omega)

lemma indtosub_zero (dims : List Nat) : indtosub dims 0 = dims.map (fun _ => 1) := by
  unfold indtosub
  rw [indtosubRevAux_zero, List.map_reverse, List.reverse_reverse]

lemma memSeqLen_pos (dims : List Nat) : 0 < memSeqLen dims := by
  unfold memSeqLen
  omega

/-- C5: the factory selects the SplitSpec at the left-most index of the
ascending reversed sequence whose value is at least
`blockSize / (nimages * itemsize)`; when the target exceeds every reachable
value it clamps to the coarsest index and returns the all-ones SplitSpec
without raising; and for `dims = (5,10,3)` with a target equal to one full
z-plane (50 cells) times element size times time count it returns
`(1, 1, 3)`. -/
theorem c5_factory_block_size_search (blockSize nimages itemsize : Nat) (dims : List Nat)
    (hb : 0 < blockSize) (hn : 0 < nimages) (hs : 0 < itemsize)
    (hpos : ∀ d ∈ dims, 0 < d) :
    (∀ i0 : Nat, i0 < memSeqLen dims →
      (blockSize : ℚ) / ((nimages * itemsize : ℕ) : ℚ) ≤ reversedValueAt dims i0 →
      (∀ k, k < i0 →
        reversedValueAt dims k < (blockSize : ℚ) / ((nimages * itemsize : ℕ) : ℚ)) →
      generateFromBlockSize blockSize dims nimages itemsize =
        some (indtosub dims (memSeqLen dims - 1 - i0))) ∧
    ((∀ i, i < memSeqLen dims →
        reversedValueAt dims i < (blockSize : ℚ) / ((nimages * itemsize : ℕ) : ℚ)) →
      generateFromBlockSize blockSize dims nimages itemsize =
        some (dims.map (fun _ => 1))) ∧
    (∀ m k : Nat, 0 < m → 0 < k →
      generateFromBlockSize (50 * m * k) [5, 10, 3] m k = some [1, 1, 3]) := by
  have hspec := bisectLeft_spec (reversedValueAt dims)
    ((blockSize : ℚ) / ((nimages * itemsize : ℕ) : ℚ)) (memSeqLen dims)
    (reversedValueAt_mono dims hpos)
  refine ⟨?_, ?_, ?_⟩
  · intro i0 hi0 hge hbelow
    have hrne : bisectLeft (reversedValueAt dims)
        ((blockSize : ℚ) / ((nimages * itemsize : ℕ) : ℚ)) 0 (memSeqLen dims) ≠
        memSeqLen dims := by
      intro he
      exact absurd (hspec.1 i0 (by omega)) (not_lt_of_le hge)
    have hrlt : bisectLeft (reversedValueAt dims)
        ((blockSize : ℚ) / ((nimages * itemsize : ℕ) : ℚ)) 0 (memSeqLen dims) <
        memSeqLen dims := by
      have := hspec.2.2
      omega
    have hxr := hspec.2.1 hrlt
    have hreq : bisectLeft (reversedValueAt dims)
        ((blockSize : ℚ) / ((nimages * itemsize : ℕ) : ℚ)) 0 (memSeqLen dims) = i0 := by
      rcases lt_trichotomy (bisectLeft (reversedValueAt dims)
        ((blockSize : ℚ) / ((nimages * itemsize : ℕ) : ℚ)) 0 (memSeqLen dims)) i0 with h | h | h
      · exact absurd hxr (not_le_of_lt (hbelow _ h))
      · exact h
      · exact absurd (hspec.1 i0 h) (not_lt_of_le hge)
    unfold generateFromBlockSize genFromTargetRatio
    rw [if_neg hrne, hreq]
    unfold reversedIndtosub reverseIdx
    rw [if_pos hi0]
    have : memSeqLen dims - (i0 + 1) = memSeqLen dims - 1 - i0 := by omega
    rw [this]
    rfl
  · intro hall
    have hreq : bisectLeft (reversedValueAt dims)
        ((blockSize : ℚ) / ((nimages * itemsize : ℕ) : ℚ)) 0 (memSeqLen dims) =
        memSeqLen dims := by
      by_contra hne
      have hrlt : bisectLeft (reversedValueAt dims)
          ((blockSize : ℚ) / ((nimages * itemsize : ℕ) : ℚ)) 0 (memSeqLen dims) <
          memSeqLen dims := by
        have := hspec.2.2
        omega
      exact absurd (hspec.2.1 hrlt) (not_le_of_lt (hall _ hrlt))
    have hl := memSeqLen_pos dims
    unfold generateFromBlockSize genFromTargetRatio
    rw [if_pos hreq, hreq]
    unfold reversedIndtosub reverseIdx
    rw [if_pos (by omega : memSeqLen dims - 1 < memSeqLen dims)]
    have he : memSeqLen dims - (memSeqLen dims - 1 + 1) = 0 := by omega
    rw [he]
    simp [indtosub_zero]
  · intro m k hm hk
    have hmQ : ((m : ℚ)) ≠ 0 := Nat.cast_ne_zero.mpr hm.ne'
    have hkQ : ((k : ℚ)) ≠ 0 := Nat.cast_ne_zero.mpr hk.ne'
    have hx : ((50 * m * k : ℕ) : ℚ) / ((m * k : ℕ) : ℚ) = 50 := by
      push_cast
      field_simp
      ring
    show genFromTargetRatio [5, 10, 3] (((50 * m * k : ℕ) : ℚ) / ((m * k : ℕ) : ℚ)) =
      some [1, 1, 3]
    rw [hx]
    with_unfolding_all decide

/-- C5 witness: instantiation at `blockSize = 100`, `nimages = 2`,
`itemsize = 1`, `dims = [5, 10, 3]`. -/
theorem c5_factory_block_size_search_witness :
    (0 < 100 ∧ 0 < 2 ∧ 0 < 1 ∧ (∀ d ∈ [5, 10, 3], 0 < d)) ∧
    ((∀ i0 : Nat, i0 < memSeqLen [5, 10, 3] →
      (100 : ℚ) / ((2 * 1 : ℕ) : ℚ) ≤ reversedValueAt [5, 10, 3] i0 →
      (∀ k, k < i0 →
        reversedValueAt [5, 10, 3] k < (100 : ℚ) / ((2 * 1 : ℕ) : ℚ)) →
      generateFromBlockSize 100 [5, 10, 3] 2 1 =
        some (indtosub [5, 10, 3] (memSeqLen [5, 10, 3] - 1 - i0))) ∧
    ((∀ i, i < memSeqLen [5, 10, 3] →
        reversedValueAt [5, 10, 3] i < (100 : ℚ) / ((2 * 1 : ℕ) : ℚ)) →
      generateFromBlockSize 100 [5, 10, 3] 2 1 =
        some ([5, 10, 3].map (fun _ => 1))) ∧
    (∀ m k : Nat, 0 < m → 0 < k →
      generateFromBlockSize (50 * m * k) [5, 10, 3] m k = some [1, 1, 3])) :=
  ⟨⟨by decide, by decide, by decide, by decide⟩,
    c5_factory_block_size_search 100 2 1 [5, 10, 3] (by decide) (by decide) (by decide)
      (by decide)⟩

/-- A numpy ndarray: a shape plus a total indexing function from index lists
to values (element dtype fixed to `Int`; the code never inspects element
values, so any dtype is represented the same way).  Reads outside the shape
are never relied upon by any theorem. -/
structure NDArray where
  shape : List Nat
  data : List Nat → Int

/-- `BlockGroupingKey` from `thunder.rdds.imgblocks.blocks` as the strategy
constructs and reads it: the original full shape and per-axis slices locating
the block (axis 0 = time). -/
structure BlockGroupingKey where
  origshape : List Nat
  origslices : List Slice
deriving DecidableEq

/-- The array-metadata collaborator (an `Images` object): `dims`, `nimages`
and `dtype`, read once at bind time.  The dtype tag is a plain string. -/
structure Images where
  dims : List Nat
  nimages : Nat
  dtype : String
deriving DecidableEq

/-- The mutable fields of a `SimpleBlockingStrategy` object: the three
metadata fields of the `BlockingStrategy` base (initialized to `None`), the
splits given at construction and the cached `_slices` grid. -/
structure StrategyState where
  dims : Option (List Nat)
  nimages : Option Nat
  dtype : Option String
  splitsPerDim : List Nat
  slices : Option (List (List Slice))
deriving DecidableEq

/-- Result shape of numpy basic slicing `a[slices]` for in-range slices:
a full axis keeps its extent, `slice(s, e, 1)` keeps `e - s`. -/
def slicedShape (slcs : List Slice) (shape : List Nat) : List Nat :=
  (slcs.zip shape).map (fun p =>
    match p.1 with
    | Slice.all => p.2
    | Slice.range s e _ => e - s)

/-- Translate an index within a sliced view back to the base array. -/
def applySlices (slcs : List Slice) (idx : List Nat) : List Nat :=
  (slcs.zip idx).map (fun p =>
    match p.1 with
    | Slice.all => p.2
    | Slice.range s _ _ => s + p.2)

/-- numpy basic slicing `a[slices]`. -/
def getSliced (a : NDArray) (slcs : List Slice) : NDArray :=
  NDArray.mk (slicedShape slcs a.shape) (fun idx => a.data (applySlices slcs idx))

/-- `numpy.expand_dims(a, axis=0)`: a new leading axis of extent 1. -/
def expandDims0 (a : NDArray) : NDArray :=
  NDArray.mk (1 :: a.shape) (fun idx => a.data idx.tail)

/-- Whether one slice selects the given coordinate. -/
def sliceCovers : Slice → Nat → Bool
  | Slice.all, _ => true
  | Slice.range s e _, i => decide (s ≤ i) && decide (i < e)

/-- Whether a multi-axis selection covers an index vector. -/
def selCovers (slcs : List Slice) (idx : List Nat) : Bool :=
  (slcs.length == idx.length) && (slcs.zip idx).all (fun p => sliceCovers p.1 p.2)

/-- Position inside the selected region of a covered base-array index. -/
def relIndex (slcs : List Slice) (idx : List Nat) : List Nat :=
  (slcs.zip idx).map (fun p =>
    match p.1 with
    | Slice.all => p.2
    | Slice.range s _ _ => p.2 - s)

/-- numpy slice assignment `a[slices] = b`: indices inside the selection read
from `b` at the translated position, others keep their old value. -/
def setSlices (a : NDArray) (slcs : List Slice) (b : NDArray) : NDArray :=
  NDArray.mk a.shape
    (fun idx => if selCovers slcs idx then b.data (relIndex slcs idx) else a.data idx)

/-- `itertools.product(*slices)`: all choices of one element per inner list,
last axis varying fastest. -/
def cartesianProduct {α : Type} : List (List α) → List (List α)
  | [] => [[]]
  | xs :: rest => xs.flatMap (fun x => (cartesianProduct rest).map (fun tl => x :: tl))

/-- `SimpleBlockingStrategy.extractBlockFromImage`: slice the image, add a
leading time axis of extent 1, and key the block by
`[numtimepoints] + imgary.shape` and `[slice(timepoint, timepoint+1, 1)] +
blockslices`. -/
def extractBlockFromImage (imgary : NDArray) (blockslices : List Slice)
    (timepoint numtimepoints : Nat) : BlockGroupingKey × NDArray :=
  (BlockGroupingKey.mk (numtimepoints :: imgary.shape)
      (Slice.range timepoint (timepoint + 1) 1 :: blockslices),
    expandDims0 (getSliced imgary blockslices))

/-- `SimpleBlockingStrategy.blockingFunction`: one `(key, block)` pair per
cell of `itertools.product(*self._slices)`.  Before `setImages` the field
`_slices` is `None` and `itertools.product(*None)` raises `TypeError`.
`self.nimages` is read as `getD 0`: every state produced by the embedded
`setImages` sets `_nimages` together with `_slices`, so the default is never
observed when `_slices` is set. -/
def SimpleBlockingStrategy.blockingFunction (st : StrategyState)
    (timePointIdxAndImageArray : Nat × NDArray) :
    Except PyError (List (BlockGroupingKey × NDArray)) :=
  match st.slices with
  | none => Except.error PyError.typeError
  | some slices =>
      Except.ok ((cartesianProduct slices).map (fun bs =>
        extractBlockFromImage timePointIdxAndImageArray.2 bs
          timePointIdxAndImageArray.1 (st.nimages.getD 0)))

/-- `SimpleBlockingStrategy.combiningFunction`: allocate a zero accumulator
shaped `[key.origshape[0]] + block.shape[1:]` from the first pair, copy each
block in at its key's time slice (full range on the other axes), and key the
result by the first key's shape with a full-range first slice.  It reads no
strategy state; an empty sequence leaves `firstkey = None` and raises
`AttributeError`.  The `headD` defaults and the total `setSlices` do not
model the `IndexError` a first key with empty `origshape`/`origslices`
would raise, nor numpy's broadcast `ValueError` on a block/selection shape
mismatch: the embedding agrees with the source only on sequences of
extraction outputs, where neither can occur, and every theorem below keeps
to that domain. -/
def SimpleBlockingStrategy.combiningFunction (st : StrategyState)
    (spatialIdxAndBlocksSequence : Nat × List (BlockGroupingKey × NDArray)) :
    Except PyError (BlockGroupingKey × NDArray) :=
  match spatialIdxAndBlocksSequence.2 with
  | [] => Except.error PyError.attributeError
  | first :: rest =>
      Except.ok
        (BlockGroupingKey.mk first.1.origshape (Slice.all :: first.1.origslices.tail),
          (first :: rest).foldl
            (fun acc kb =>
              setSlices acc
                (kb.1.origslices.headD Slice.all ::
                  List.replicate (kb.2.shape.length - 1) Slice.all)
                kb.2)
            (NDArray.mk (first.1.origshape.headD 0 :: first.2.shape.tail) (fun _ => 0)))

/-- `BlockingStrategy.setImages`: store `dims`, `nimages` and `dtype` read
from the images collaborator. -/
def BlockingStrategy.setImages (st : StrategyState) (img : Images) : StrategyState :=
  StrategyState.mk (some img.dims) (some img.nimages) (some img.dtype)
    st.splitsPerDim st.slices

/-- `SimpleBlockingStrategy.setImages`: the base-class bind commits the three
metadata fields first; `__validateSplitsForImage` then checks only that the
splits length matches the dimensionality (`ValueError` on mismatch, with
`_slices` left untouched); on success `_slices` is recomputed. -/
def SimpleBlockingStrategy.setImages (st : StrategyState) (img : Images) :
    StrategyState × Option PyError :=
  if st.splitsPerDim.length = img.dims.length then
    (StrategyState.mk (some img.dims) (some img.nimages) (some img.dtype)
        st.splitsPerDim (some (generateSlices st.splitsPerDim img.dims)), none)
  else
    (BlockingStrategy.setImages st img, some PyError.valueError)

/-- `SimpleBlockingStrategy.__normalizeSplits`: raise `ValueError` when any
split count is non-positive (counts are `Nat` here, so non-positive means
zero), otherwise keep the splits. -/
def normalizeSplits (splitsPerDim : List Nat) : Except PyError (List Nat) :=
  if splitsPerDim.any (fun n => n == 0) then Except.error PyError.valueError
  else Except.ok splitsPerDim

/-- A freshly constructed `SimpleBlockingStrategy` with the given
(already-normalized) splits: all metadata fields `None`, `_slices = None`. -/
def freshSimpleStrategy (splitsPerDim : List Nat) : StrategyState :=
  StrategyState.mk none none none splitsPerDim none

/-- `SimpleBlockingStrategy.__init__`: normalize the splits, then build the
fresh state. -/
def SimpleBlockingStrategy.new (splitsPerDim : List Nat) : Except PyError StrategyState :=
  (normalizeSplits splitsPerDim).map (fun sp => freshSimpleStrategy sp)

/-- The `BlockingStrategy.dims` property: `return self._dims`. -/
def BlockingStrategy.dims (st : StrategyState) : Option (List Nat) := st.dims

/-- The `BlockingStrategy.nimages` property: `return self._nimages`. -/
def BlockingStrategy.nimages (st : StrategyState) : Option Nat := st.nimages

/-- The `BlockingStrategy.dtype` property exactly as the source writes it:
`return self.dtype`, which re-invokes the property itself.  `fuel` bounds the
recursion depth; `none` is the `RecursionError` that every finite depth
produces (the docstring instead promises the stored `_dtype`). -/
def BlockingStrategy.dtype (st : StrategyState) : Nat → Option String
  | 0 => none
  | fuel + 1 => BlockingStrategy.dtype st fuel

/-- The image seen at one time point of a source array over shape
`timeCount :: dims` given by the indexing function `d`. -/
def imageAt (d : List Nat → Int) (dims : List Nat) (t : Nat) : NDArray :=
  NDArray.mk dims (fun idx => d (t :: idx))

lemma sum_map_const_nat {α : Type} (l : List α) (c : Nat) :
    (l.map (fun _ => c)).sum = l.length * c := by
  induction l with
  | nil => simp
  | cons a l ih =>
    simp only [List.map_cons, List.sum_cons, List.length_cons, ih, Nat.succ_mul]
    omega

lemma cartesianProduct_length {α : Type} (ls : List (List α)) :
    (cartesianProduct ls).length = (ls.map List.length).prod := by
  induction ls with
  | nil => rfl
  | cons xs rest ih =>
    simp only [cartesianProduct, List.map_cons, List.prod_cons]
    rw [List.length_flatMap]
    have hmap : List.map (List.length ∘ fun x => (cartesianProduct rest).map (fun tl => x :: tl))
        xs = xs.map (fun _ => (cartesianProduct rest).length) := by
      apply List.map_congr_left
      intro x _
      simp [Function.comp]
    rw [hmap, sum_map_const_nat, ih]

lemma mem_cartesianProduct_length {α : Type} :
    ∀ (ls : List (List α)) (bs : List α), bs ∈ cartesianProduct ls → bs.length = ls.length := by
  intro ls
  induction ls with
  | nil =>
    intro bs h
    simp only [cartesianProduct, List.mem_singleton] at h
    subst h
    rfl
  | cons xs rest ih =>
    intro bs h
    simp only [cartesianProduct, List.mem_flatMap, List.mem_map] at h
    obtain ⟨x, _, tl, htl, rfl⟩ := h
    simp [ih tl htl]

/-- C6: on a bound strategy one extraction call returns exactly one
`(key, block)` pair per cell of the Cartesian product of the slice grid — as
many pairs as the product of the per-axis slice counts — where each block is
the sliced input with a new leading axis of extent 1, each key's original
shape is `timeCount :: inputArray.shape` and each key's original slices are
the singleton time slice followed by the cell's slices. -/
theorem c6_blocking_per_cell (st : StrategyState) (slices : List (List Slice)) (n : Nat)
    (hsl : st.slices = some slices) (hni : st.nimages = some n)
    (tp : Nat) (imgary : NDArray) :
    SimpleBlockingStrategy.blockingFunction st (tp, imgary) =
      Except.ok ((cartesianProduct slices).map
        (fun bs => extractBlockFromImage imgary bs tp n)) ∧
    (cartesianProduct slices).length = (slices.map List.length).prod ∧
    (∀ bs ∈ cartesianProduct slices,
      extractBlockFromImage imgary bs tp n =
        (BlockGroupingKey.mk (n :: imgary.shape) (Slice.range tp (tp + 1) 1 :: bs),
          NDArray.mk (1 :: slicedShape bs imgary.shape)
            (fun idx => imgary.data (applySlices bs idx.tail)))) := by
  refine ⟨?_, cartesianProduct_length slices, ?_⟩
  · unfold SimpleBlockingStrategy.blockingFunction
    rw [hsl, hni]
    rfl
  · intro bs _
    rfl

/-- Example bound strategy used by witnesses. -/
def exStrategyState : StrategyState :=
  StrategyState.mk (some [2]) (some 3) (some "uint8") [2] (some (generateSlices [2] [2]))

/-- Example image array used by witnesses. -/
def exImage : NDArray := NDArray.mk [2] (fun idx => (idx.headD 0 : Int))

/-- C6 witness: instantiation on the example bound strategy at time point 1. -/
theorem c6_blocking_per_cell_witness :
    (exStrategyState.slices = some (generateSlices [2] [2]) ∧
     exStrategyState.nimages = some 3) ∧
    (SimpleBlockingStrategy.blockingFunction exStrategyState (1, exImage) =
        Except.ok ((cartesianProduct (generateSlices [2] [2])).map
          (fun bs => extractBlockFromImage exImage bs 1 3)) ∧
      (cartesianProduct (generateSlices [2] [2])).length =
        ((generateSlices [2] [2]).map List.length).prod ∧
      (∀ bs ∈ cartesianProduct (generateSlices [2] [2]),
        extractBlockFromImage exImage bs 1 3 =
          (BlockGroupingKey.mk (3 :: exImage.shape) (Slice.range 1 (1 + 1) 1 :: bs),
            NDArray.mk (1 :: slicedShape bs exImage.shape)
              (fun idx => exImage.data (applySlices bs idx.tail))))) :=
  ⟨⟨rfl, rfl⟩,
    c6_blocking_per_cell exStrategyState (generateSlices [2] [2]) 3 rfl rfl 1 exImage⟩

lemma foldl_setSlices_shape :
    ∀ (l : List (BlockGroupingKey × NDArray)) (acc : NDArray),
      (l.foldl
        (fun acc kb =>
          setSlices acc
            (kb.1.origslices.headD Slice.all ::
              List.replicate (kb.2.shape.length - 1) Slice.all)
            kb.2)
        acc).shape = acc.shape := by
  intro l
  induction l with
  | nil => intro acc; rfl
  | cons kb l ih =>
    intro acc
    rw [List.foldl_cons, ih]
    rfl

lemma all_sliceCovers_replicate_all :
    ∀ (m : Nat) (idx : List Nat),
      ((List.replicate m Slice.all).zip idx).all (fun p => sliceCovers p.1 p.2) = true := by
  intro m
  induction m with
  | zero => intro idx; rfl
  | succ m ih =>
    intro idx
    cases idx with
    | nil => rfl
    | cons i idx =>
      rw [List.replicate_succ, List.zip_cons_cons, List.all_cons, ih idx]
      rfl

lemma selCovers_time (t tq m : Nat) (idx : List Nat) (hlen : idx.length = m) :
    (selCovers (Slice.range t (t + 1) 1 :: List.replicate m Slice.all) (tq :: idx) = true) ↔
      tq = t := by
  subst hlen
  unfold selCovers
  rw [List.zip_cons_cons, List.all_cons, all_sliceCovers_replicate_all]
  simp only [List.length_cons, List.length_replicate, beq_self_eq_true, Bool.true_and,
    Bool.and_true, sliceCovers, Bool.and_eq_true, decide_eq_true_eq]
  omega

lemma selCovers_time_ne (t tq m : Nat) (idx : List Nat) (hlen : idx.length = m) (h : tq ≠ t) :
    selCovers (Slice.range t (t + 1) 1 :: List.replicate m Slice.all) (tq :: idx) = false := by
  rw [Bool.eq_false_iff]
  intro hc
  exact h ((selCovers_time t tq m idx hlen).mp hc)

lemma relIndex_replicate_all : ∀ idx : List Nat,
    relIndex (List.replicate idx.length Slice.all) idx = idx := by
  intro idx
  induction idx with
  | nil => rfl
  | cons i idx ih =>
    rw [List.length_cons, List.replicate_succ]
    unfold relIndex
    rw [List.zip_cons_cons, List.map_cons]
    show i :: relIndex (List.replicate idx.length Slice.all) idx = i :: idx
    rw [ih]

lemma relIndex_time (t m : Nat) (idx : List Nat) (hlen : idx.length = m) :
    relIndex (Slice.range t (t + 1) 1 :: List.replicate m Slice.all) (t :: idx) = 0 :: idx := by
  subst hlen
  unfold relIndex
  rw [List.zip_cons_cons, List.map_cons]
  show (t - t) :: relIndex (List.replicate idx.length Slice.all) idx = 0 :: idx
  rw [Nat.sub_self, relIndex_replicate_all]

lemma c2_fold_data (d : List Nat → Int) (dims : List Nat) (bs : List Slice)
    (hbs : bs.length = dims.length) (n : Nat) :
    ∀ (ts : List Nat) (acc : NDArray) (tq : Nat) (idx : List Nat), idx.length = dims.length →
      ((ts.map (fun t => extractBlockFromImage (imageAt d dims t) bs t n)).foldl
          (fun acc kb =>
            setSlices acc
              (kb.1.origslices.headD Slice.all ::
                List.replicate (kb.2.shape.length - 1) Slice.all)
              kb.2)
          acc).data (tq :: idx) =
        (if tq ∈ ts then d (tq :: applySlices bs idx) else acc.data (tq :: idx)) := by
  have hslen : (slicedShape bs dims).length = dims.length := by
    unfold slicedShape
    rw [List.length_map, List.length_zip, hbs]
    exact Nat.min_self _
  intro ts
  induction ts with
  | nil =>
    intro acc tq idx _
    simp
  | cons t ts ih =>
    intro acc tq idx hidx
    rw [List.map_cons, List.foldl_cons, ih _ tq idx hidx]
    by_cases hmem2 : tq ∈ ts
    · rw [if_pos hmem2, if_pos (List.mem_cons_of_mem t hmem2)]
    · rw [if_neg hmem2]
      have e2 : (extractBlockFromImage (imageAt d dims t) bs t n).2.shape.length - 1 =
          dims.length := by
        show (1 :: slicedShape bs dims).length - 1 = dims.length
        rw [List.length_cons, Nat.add_sub_cancel]
        exact hslen
      show (setSlices acc
          ((extractBlockFromImage (imageAt d dims t) bs t n).1.origslices.headD Slice.all ::
            List.replicate
              ((extractBlockFromImage (imageAt d dims t) bs t n).2.shape.length - 1)
              Slice.all)
          (extractBlockFromImage (imageAt d dims t) bs t n).2).data (tq :: idx) = _
      rw [e2]
      rw [show (extractBlockFromImage (imageAt d dims t) bs t n).1.origslices.headD Slice.all =
        Slice.range t (t + 1) 1 from rfl]
      show (if selCovers (Slice.range t (t + 1) 1 :: List.replicate dims.length Slice.all)
              (tq :: idx) = true
            then (extractBlockFromImage (imageAt d dims t) bs t n).2.data
              (relIndex (Slice.range t (t + 1) 1 :: List.replicate dims.length Slice.all)
                (tq :: idx))
            else acc.data (tq :: idx)) = _
      by_cases htq : tq = t
      · subst htq
        rw [if_pos ((selCovers_time tq tq dims.length idx hidx).mpr rfl)]
        rw [relIndex_time tq dims.length idx hidx]
        rw [if_pos (List.mem_cons_self tq ts)]
        rfl
      · rw [if_neg (by rw [selCovers_time_ne t tq dims.length idx hidx htq]; simp)]
        rw [if_neg (by simp [List.mem_cons, htq, hmem2])]

lemma combiningFunction_cons (st : StrategyState) (spid : Nat)
    (p : BlockGroupingKey × NDArray) (rest : List (BlockGroupingKey × NDArray)) :
    SimpleBlockingStrategy.combiningFunction st (spid, p :: rest) =
      Except.ok
        (BlockGroupingKey.mk p.1.origshape (Slice.all :: p.1.origslices.tail),
          (p :: rest).foldl
            (fun acc kb =>
              setSlices acc
                (kb.1.origslices.headD Slice.all ::
                  List.replicate (kb.2.shape.length - 1) Slice.all)
                kb.2)
            (NDArray.mk (p.1.origshape.headD 0 :: p.2.shape.tail) (fun _ => 0))) := rfl

/-- C2: over a bound strategy, extracting each time point's blocks
(`blockingFunction`, one pair per grid cell) and then combining the pairs of
one spatial cell across all time points (`combiningFunction`) rebuilds
exactly the corresponding subregion of the original data over the full time
axis, with an output key whose first original slice is full-range and whose
spatial slices are unchanged. -/
theorem c2_extract_combine_roundtrip (st : StrategyState) (dims splits : List Nat) (n : Nat)
    (d : List Nat → Int) (spid : Nat) (blockslices : List Slice)
    (hn : 0 < n) (hlen : splits.length = dims.length)
    (hmem : blockslices ∈ cartesianProduct (generateSlices splits dims))
    (hsl : st.slices = some (generateSlices splits dims))
    (hni : st.nimages = some n) :
    (∀ t : Nat, SimpleBlockingStrategy.blockingFunction st (t, imageAt d dims t) =
      Except.ok ((cartesianProduct (generateSlices splits dims)).map
        (fun bs => extractBlockFromImage (imageAt d dims t) bs t n))) ∧
    (∃ ary : NDArray,
      SimpleBlockingStrategy.combiningFunction st
          (spid, (List.range n).map
            (fun t => extractBlockFromImage (imageAt d dims t) blockslices t n)) =
        Except.ok (BlockGroupingKey.mk (n :: dims) (Slice.all :: blockslices), ary) ∧
      ary.shape = n :: slicedShape blockslices dims ∧
      (∀ (tq : Nat) (idx : List Nat), tq < n → idx.length = dims.length →
        ary.data (tq :: idx) = d (tq :: applySlices blockslices idx))) := by
  have hgl : (generateSlices splits dims).length = dims.length := by
    unfold generateSlices
    rw [List.length_map, List.length_zip, hlen]
    exact Nat.min_self _
  have hbs : blockslices.length = dims.length := by
    rw [mem_cartesianProduct_length _ _ hmem, hgl]
  constructor
  · intro t
    unfold SimpleBlockingStrategy.blockingFunction
    rw [hsl, hni]
    rfl
  · obtain ⟨m, rfl⟩ : ∃ m, n = m + 1 := ⟨n - 1, by omega⟩
    rw [List.range_succ_eq_map, List.map_cons, combiningFunction_cons]
    refine ⟨_, rfl, ?_, ?_⟩
    · rw [foldl_setSlices_shape]
      rfl
    · intro tq idx htq hidx
      have hlist : extractBlockFromImage (imageAt d dims 0) blockslices 0 (m + 1) ::
          List.map (fun t => extractBlockFromImage (imageAt d dims t) blockslices t (m + 1))
            (List.map Nat.succ (List.range m)) =
          (List.range (m + 1)).map
            (fun t => extractBlockFromImage (imageAt d dims t) blockslices t (m + 1)) := by
        rw [List.range_succ_eq_map, List.map_cons]
      rw [hlist]
      rw [c2_fold_data d dims blockslices hbs (m + 1) (List.range (m + 1)) _ tq idx hidx]
      rw [if_pos (List.mem_range.mpr htq)]

/-- Example bound strategy with one time point, used by the C2 witness. -/
def exBoundState : StrategyState :=
  StrategyState.mk (some [2]) (some 1) (some "uint8") [2] (some (generateSlices [2] [2]))

/-- Example source-array indexing function used by the C2 witness. -/
def exData : List Nat → Int := fun l => (l.headD 0 : Int) * 3 + 1

/-- C2 witness: instantiation on a 1-D image of extent 2 split in two, one
time point, first spatial cell. -/
theorem c2_extract_combine_roundtrip_witness :
    (0 < 1 ∧ ([2] : List Nat).length = ([2] : List Nat).length ∧
     [Slice.range 0 1 1] ∈ cartesianProduct (generateSlices [2] [2]) ∧
     exBoundState.slices = some (generateSlices [2] [2]) ∧
     exBoundState.nimages = some 1) ∧
    ((∀ t : Nat, SimpleBlockingStrategy.blockingFunction exBoundState
        (t, imageAt exData [2] t) =
       Except.ok ((cartesianProduct (generateSlices [2] [2])).map
         (fun bs => extractBlockFromImage (imageAt exData [2] t) bs t 1))) ∧
     (∃ ary : NDArray,
       SimpleBlockingStrategy.combiningFunction exBoundState
           (0, (List.range 1).map
             (fun t => extractBlockFromImage (imageAt exData [2] t) [Slice.range 0 1 1] t 1)) =
         Except.ok (BlockGroupingKey.mk (1 :: [2]) (Slice.all :: [Slice.range 0 1 1]), ary) ∧
       ary.shape = 1 :: slicedShape [Slice.range 0 1 1] [2] ∧
       (∀ (tq : Nat) (idx : List Nat), tq < 1 → idx.length = ([2] : List Nat).length →
         ary.data (tq :: idx) = exData (tq :: applySlices [Slice.range 0 1 1] idx)))) :=
  ⟨⟨by decide, rfl, by decide, rfl, rfl⟩,
    c2_extract_combine_roundtrip exBoundState [2] [2] 1 exData 0 [Slice.range 0 1 1]
      (by decide) rfl (by decide) rfl rfl⟩

/-- C7 counterexample: with splits `[5]` and image dims `[3]` — a split count
exceeding the dimension size — binding metadata raises nothing: the error
component of `setImages` is `none`, refuting the claim that a
`ValidationError` is raised for the exceeded bound. -/
theorem c7_counterexample :
    3 < 5 ∧
    (SimpleBlockingStrategy.setImages (freshSimpleStrategy [5]) (Images.mk [3] 1 "uint8")).2 =
      none :=
  ⟨by decide, rfl⟩

/-- C7 amended: binding metadata validates only that the SplitSpec length
matches the dims length (`ValueError` exactly on mismatch); a split count
exceeding its dimension size passes the bind unchecked, and construction
checks only positivity (no dims bound is known at construction). -/
theorem c7_bind_checks_only_length (st : StrategyState) (img : Images) :
    (SimpleBlockingStrategy.setImages st img).2 =
      (if st.splitsPerDim.length = img.dims.length then none else some PyError.valueError) ∧
    (∀ splits : List Nat, (∀ k ∈ splits, 0 < k) →
      SimpleBlockingStrategy.new splits = Except.ok (freshSimpleStrategy splits)) := by
  constructor
  · unfold SimpleBlockingStrategy.setImages
    by_cases h : st.splitsPerDim.length = img.dims.length
    · rw [if_pos h, if_pos h]
    · rw [if_neg h, if_neg h]
  · intro splits hk
    have hany : splits.any (fun n => n == 0) = false := by
      rw [List.any_eq_false]
      intro x hx
      simp only [beq_iff_eq]
      exact (hk x hx).ne'
    unfold SimpleBlockingStrategy.new normalizeSplits
    rw [hany]
    rfl

/-- C7 witness: the amended statement instantiated at a splits/dims length
mismatch and at the oversized-but-positive splits `[5]`. -/
theorem c7_bind_checks_only_length_witness :
    (SimpleBlockingStrategy.setImages (freshSimpleStrategy [2]) (Images.mk [3, 3] 1 "u")).2 =
      (if (freshSimpleStrategy [2]).splitsPerDim.length = (Images.mk [3, 3] 1 "u").dims.length
       then none else some PyError.valueError) ∧
    SimpleBlockingStrategy.new [5] = Except.ok (freshSimpleStrategy [5]) :=
  ⟨(c7_bind_checks_only_length (freshSimpleStrategy [2]) (Images.mk [3, 3] 1 "u")).1,
   (c7_bind_checks_only_length (freshSimpleStrategy [2]) (Images.mk [3, 3] 1 "u")).2 [5]
     (by decide)⟩

/-- C8 counterexample: on a freshly constructed strategy (no `setImages`
call: all metadata fields `None`), the combination function succeeds on a
nonempty input, refuting the claim that invoking it before bind is an error
for every input. -/
theorem c8_counterexample :
    (freshSimpleStrategy [2]).slices = none ∧
    (freshSimpleStrategy [2]).nimages = none ∧
    (SimpleBlockingStrategy.combiningFunction (freshSimpleStrategy [2])
        (0, [(BlockGroupingKey.mk [1, 2] [Slice.range 0 1 1, Slice.range 0 2 1],
              NDArray.mk [1, 2] (fun _ => 0))])).toOption.isSome = true :=
  ⟨rfl, rfl, rfl⟩

/-- C8 amended: before bind the extraction function fails on every input
(`TypeError` from `itertools.product(*None)`), but the combination function
reads no bound metadata, so being unbound is not itself an error for it: it
fails on an empty block sequence (`firstkey` stays `None`) and succeeds on
any nonempty sequence of genuine extraction outputs — one block per time
point `0..m` of any image, spatial cell and time count `m + 1`. -/
theorem c8_unbound_behaviour (st : StrategyState) (inp : Nat × NDArray)
    (hnb : st.slices = none) :
    SimpleBlockingStrategy.blockingFunction st inp = Except.error PyError.typeError ∧
    (∀ (sp : Nat) (d : List Nat → Int) (dims : List Nat) (bs : List Slice) (m : Nat),
      (SimpleBlockingStrategy.combiningFunction st
          (sp, (List.range (m + 1)).map
            (fun t => extractBlockFromImage (imageAt d dims t) bs t (m + 1)))).toOption.isSome =
        true) ∧
    (∀ sp : Nat, SimpleBlockingStrategy.combiningFunction st (sp, []) =
      Except.error PyError.attributeError) := by
  refine ⟨?_, ?_, ?_⟩
  · unfold SimpleBlockingStrategy.blockingFunction
    rw [hnb]
  · intro sp d dims bs m
    rw [List.range_succ_eq_map, List.map_cons, combiningFunction_cons]
    rfl
  · intro sp
    rfl

/-- C8 witness: the amended statement instantiated on a fresh strategy, with
the combination applied to the extraction output of one time point. -/
theorem c8_unbound_behaviour_witness :
    SimpleBlockingStrategy.blockingFunction (freshSimpleStrategy [2])
        (0, NDArray.mk [2] (fun _ => 0)) = Except.error PyError.typeError ∧
    (SimpleBlockingStrategy.combiningFunction (freshSimpleStrategy [2])
        (1, (List.range (0 + 1)).map
          (fun t => extractBlockFromImage (imageAt exData [2] t) [Slice.range 0 1 1] t
            (0 + 1)))).toOption.isSome = true ∧
    SimpleBlockingStrategy.combiningFunction (freshSimpleStrategy [2]) (1, []) =
      Except.error PyError.attributeError :=
  ⟨(c8_unbound_behaviour (freshSimpleStrategy [2]) (0, NDArray.mk [2] (fun _ => 0)) rfl).1,
   (c8_unbound_behaviour (freshSimpleStrategy [2]) (0, NDArray.mk [2] (fun _ => 0)) rfl).2.1 1
     exData [2] [Slice.range 0 1 1] 0,
   (c8_unbound_behaviour (freshSimpleStrategy [2]) (0, NDArray.mk [2] (fun _ => 0)) rfl).2.2 1⟩

/-- C9 counterexample: a bind whose dims length mismatches the splits length
raises, yet the stored dims field changes from `none` to the new source's
dims — the failed call does mutate the strategy, refuting the
no-partial-mutation claim. -/
theorem c9_counterexample :
    (SimpleBlockingStrategy.setImages (freshSimpleStrategy [2, 2])
        (Images.mk [3, 3, 3] 4 "u")).2 = some PyError.valueError ∧
    (SimpleBlockingStrategy.setImages (freshSimpleStrategy [2, 2])
        (Images.mk [3, 3, 3] 4 "u")).1.dims ≠ (freshSimpleStrategy [2, 2]).dims :=
  ⟨rfl, by decide⟩

/-- C9 amended: on a dims/splits length mismatch the bind raises
`ValueError`, but only after the base-class bind has already overwritten
`dims`, `nimages` and `dtype` with the values read from the source; only the
`_slices` grid (and the splits) are left unchanged — the ordering is
mutate-then-validate, not validate-then-commit. -/
theorem c9_failed_bind_overwrites_metadata (st : StrategyState) (img : Images)
    (h : st.splitsPerDim.length ≠ img.dims.length) :
    (SimpleBlockingStrategy.setImages st img).2 = some PyError.valueError ∧
    (SimpleBlockingStrategy.setImages st img).1 =
      StrategyState.mk (some img.dims) (some img.nimages) (some img.dtype)
        st.splitsPerDim st.slices := by
  unfold SimpleBlockingStrategy.setImages
  rw [if_neg h]
  exact ⟨rfl, rfl⟩

/-- C9 witness: the amended statement instantiated at a concrete mismatch. -/
theorem c9_failed_bind_overwrites_metadata_witness :
    (SimpleBlockingStrategy.setImages (freshSimpleStrategy [2]) (Images.mk [1, 2] 3 "u")).2 =
      some PyError.valueError ∧
    (SimpleBlockingStrategy.setImages (freshSimpleStrategy [2]) (Images.mk [1, 2] 3 "u")).1 =
      StrategyState.mk (some [1, 2]) (some 3) (some "u")
        (freshSimpleStrategy [2]).splitsPerDim (freshSimpleStrategy [2]).slices :=
  c9_failed_bind_overwrites_metadata (freshSimpleStrategy [2]) (Images.mk [1, 2] 3 "u")
    (by decide)

/-- C10: the `dims` and `nimages` properties return the stored fields, but
the `dtype` property as written (`return self.dtype`) re-invokes itself and
never returns the stored value at any recursion depth — on every strategy,
bound or not, reading `dtype` is a `RecursionError` instead of the stored
dtype its own docstring promises (the body should read `self._dtype`). -/
theorem c10_dtype_property_diverges :
    (∀ (st : StrategyState) (fuel : Nat), BlockingStrategy.dtype st fuel = none) ∧
    (∀ st : StrategyState, BlockingStrategy.dims st = st.dims ∧
      BlockingStrategy.nimages st = st.nimages) := by
  constructor
  · intro st fuel
    induction fuel with
    | zero => rfl
    | succ fuel ih => exact ih
  · intro st
    exact ⟨rfl, rfl⟩
